import Mathlib

/-!
Verification of the `rb::SpscRingBuffer` fixed-size ring buffer from
`include/ring_buffer/ring_buffer.hpp`, studied in its sequential model
(operations applied one at a time to an explicit state).

The buffer stores elements of type `T` in `Capacity` slots, where
`Capacity` is a power of two that is at least 2.  `head` and `tail` are
free-running 64-bit unsigned counters (`std::size_t`); the physical slot
of a counter value is `counter &&& (Capacity - 1)`.  A slot that holds no
live element is modelled as `none`; `std::construct_at` stores `some v`
and `std::destroy_at` stores `none`.  Reading a destroyed slot is
undefined behaviour in C++; the model returns `default` there, which is
irrelevant under the liveness invariant proved below.

Capacities are constrained to `2 ^ k` with `1 ≤ k ≤ 63`: the
`static_assert` in the class requires a power of two at least 2, and the
byte array `storage[Capacity * sizeof(T)]` bounds `Capacity` by `2 ^ 63`
since `sizeof(T) ≥ 1` and object sizes are below `2 ^ 64`.
-/

namespace rb

/-- Modulus of the 64-bit `std::size_t` counters, `2 ^ 64` as a literal. -/
def W : Nat := 18446744073709551616

/-- Wrapping unsigned subtraction modulo `W`, the value of the C++
expression `a - b` at type `std::size_t`. -/
def usub (a b : Nat) : Nat := (a % W + (W - b % W)) % W

/-- State of `rb::SpscRingBuffer<T, CapacityPow2>`: the slot array and the
two counters.  The capacity is passed to each operation, mirroring the
class template parameter. -/
structure SpscRingBuffer (T : Type) where
  storage : List (Option T)
  head : Nat
  tail : Nat
  deriving DecidableEq

variable {T : Type} [Inhabited T]

/-- The freshly constructed buffer: both counters zero, no live element. -/
def mkBuffer (T : Type) (C : Nat) : SpscRingBuffer T :=
  ⟨List.replicate C none, 0, 0⟩

/-- `emplace(args...)`: fails when the buffer already holds `C - 1` live
elements, otherwise constructs the element at slot `head &&& (C - 1)` and
publishes `head + 1`. -/
def emplace (C : Nat) (v : T) (b : SpscRingBuffer T) : Bool × SpscRingBuffer T :=
  let head_loaded := b.head
  let next := (head_loaded + 1) % W
  if C - 1 < usub next b.tail then
    (false, b)
  else
    let idx := head_loaded &&& (C - 1)
    (true, { b with storage := b.storage.set idx (some v), head := next })

/-- `push(v)` forwards to `emplace`. -/
def push (C : Nat) (v : T) (b : SpscRingBuffer T) : Bool × SpscRingBuffer T :=
  emplace C v b

/-- `pop(out)`: fails on an empty buffer, otherwise moves the element out
of slot `tail &&& (C - 1)`, destroys it and publishes `tail + 1`.  The
returned `Option` packages the C++ `bool` result together with the value
written to `out`. -/
def pop (C : Nat) (b : SpscRingBuffer T) : Option T × SpscRingBuffer T :=
  let tail_loaded := b.tail
  if tail_loaded % W = b.head % W then
    (none, b)
  else
    let idx := tail_loaded &&& (C - 1)
    let out := (b.storage.getD idx none).getD default
    (some out, { b with storage := b.storage.set idx none, tail := (tail_loaded + 1) % W })

/-- `try_pop()`: same steps as `pop`, returning the element through a
`std::optional` that is engaged exactly when the buffer was non-empty. -/
def try_pop (C : Nat) (b : SpscRingBuffer T) : Option T × SpscRingBuffer T :=
  let tail_loaded := b.tail
  if tail_loaded % W = b.head % W then
    (none, b)
  else
    let idx := tail_loaded &&& (C - 1)
    let out := (b.storage.getD idx none).getD default
    (some out, { b with storage := b.storage.set idx none, tail := (tail_loaded + 1) % W })

/-- `empty()`: the two counters compare equal. -/
def empty (b : SpscRingBuffer T) : Bool :=
  b.tail % W == b.head % W

/-- `full()`: `head - tail >= Capacity - 1` in unsigned arithmetic. -/
def full (C : Nat) (b : SpscRingBuffer T) : Bool :=
  decide (C - 1 ≤ usub b.head b.tail)

/-- `size()`: `head - tail` in unsigned arithmetic. -/
def size (b : SpscRingBuffer T) : Nat :=
  usub b.head b.tail

/-- `capacity()`: the compile-time capacity constant. -/
def capacity (C : Nat) : Nat := C

/-- `clear()`: drain the buffer by calling `try_pop` until the returned
optional is disengaged. -/
def clear (C : Nat) (b : SpscRingBuffer T) : SpscRingBuffer T :=
  if h : (try_pop C b).1.isSome then clear C (try_pop C b).2 else (try_pop C b).2
termination_by usub b.head b.tail
decreasing_by
  simp only [try_pop] at h ⊢
  by_cases hc : b.tail % W = b.head % W
  · rw [if_pos hc] at h
    simp at h
  · simp only [if_neg hc] at h ⊢
    simp only [usub, W] at hc ⊢
    omega

/-- `peek(out)`: copy the element at slot `tail &&& (C - 1)` without
destroying it or advancing `tail`; the operation is `const`, so it
returns no new state. -/
def peek (C : Nat) (b : SpscRingBuffer T) : Option T :=
  if b.tail % W = b.head % W then none
  else some ((b.storage.getD (b.tail &&& (C - 1)) none).getD default)

/-- Destroy `n` consecutive slots starting at index `start`, as done by
the `std::destroy_at` calls of a `pop_bulk` copy loop. -/
def clearSlots (s : List (Option T)) (start n : Nat) : List (Option T) :=
  (List.range n).foldl (fun acc i => acc.set (start + i) none) s

/-- `pop_bulk(out, max_n)`: remove up to `max_n` oldest elements in two
contiguous segments (up to the physical end of the array, then from slot
0), destroy each moved-out slot, and publish `tail + to_pop`.  The list
returned is the prefix of `out` that was written; its length is the C++
return value. -/
def pop_bulk (C : Nat) (b : SpscRingBuffer T) (max_n : Nat) :
    List T × SpscRingBuffer T :=
  let tail_loaded := b.tail
  let head_loaded := b.head
  let available := usub head_loaded tail_loaded
  if available = 0 ∨ max_n = 0 then ([], b)
  else
    let to_pop := if available < max_n then available else max_n
    let idx := tail_loaded &&& (C - 1)
    let first := if C - idx < to_pop then C - idx else to_pop
    let out1 := (List.range first).map
      (fun i => (b.storage.getD (idx + i) none).getD default)
    let storage1 := clearSlots b.storage idx first
    let out2 := (List.range (to_pop - first)).map
      (fun i => (storage1.getD i none).getD default)
    let storage2 := clearSlots storage1 0 (to_pop - first)
    (out1 ++ out2,
     { b with storage := storage2, tail := (tail_loaded + to_pop) % W })

/-- `emplace_bulk(elements...)`: the stub in the source returns `false`
unconditionally and never touches the buffer. -/
def emplace_bulk (b : SpscRingBuffer T) (elements : List T) :
    Bool × SpscRingBuffer T :=
  (false, b)

/-- Modelled from the spec (for the refinement claim about `clear`):
"repeatedly removes and discards elements until the buffer is empty;
equivalent to draining via `try_pop` in a loop".  Calls `try_pop`,
discards the value, and stops once the optional comes back empty. -/
def drainSpec (C : Nat) (b : SpscRingBuffer T) : SpscRingBuffer T :=
  if h : (try_pop C b).1.isNone then (try_pop C b).2 else drainSpec C (try_pop C b).2
termination_by usub b.head b.tail
decreasing_by
  simp only [try_pop] at h ⊢
  by_cases hc : b.tail % W = b.head % W
  · rw [if_pos hc] at h
    simp at h
  · simp only [if_neg hc] at h ⊢
    simp only [usub, W] at hc ⊢
    omega

/-- Sequential well-formedness of a buffer state: the slot array has the
declared capacity, both counters are machine words, at most `C - 1`
elements are live, and every live slot actually holds an element. -/
def Inv (C : Nat) (b : SpscRingBuffer T) : Prop :=
  b.storage.length = C ∧ b.head < W ∧ b.tail < W ∧ usub b.head b.tail ≤ C - 1 ∧
  ∀ i, i < usub b.head b.tail →
    (b.storage.getD ((b.tail + i) % C) none).isSome = true

instance (C : Nat) (b : SpscRingBuffer T) : Decidable (Inv C b) := by
  unfold Inv; infer_instance

/-- The live elements of the buffer, oldest first: the contents the
buffer represents as a FIFO queue. -/
def absList (C : Nat) (b : SpscRingBuffer T) : List T :=
  (List.range (size b)).map
    (fun i => (b.storage.getD ((b.tail + i) % C) none).getD default)

/-- A producer/consumer request: push a value, or pop. -/
inductive Op (T : Type) where
  | push : T → Op T
  | pop : Op T
  deriving DecidableEq

/-- The observable outcome of one operation: the `bool` returned by a
push, or the optional value returned by a pop. -/
inductive Obs (T : Type) where
  | pushed : Bool → Obs T
  | popped : Option T → Obs T
  deriving DecidableEq

/-- One operation applied to the buffer. -/
def stepBuf (C : Nat) (b : SpscRingBuffer T) : Op T → SpscRingBuffer T × Obs T
  | .push v => ((emplace C v b).2, .pushed (emplace C v b).1)
  | .pop => ((pop C b).2, .popped (pop C b).1)

/-- The sequence of observations the buffer produces on a request list. -/
def runBuf (C : Nat) (b : SpscRingBuffer T) : List (Op T) → List (Obs T)
  | [] => []
  | op :: ops => (stepBuf C b op).2 :: runBuf C (stepBuf C b op).1 ops

/-- One operation of the specification queue: a FIFO list bounded at
`C - 1` elements. -/
def stepQueue (C : Nat) (q : List T) : Op T → List T × Obs T
  | .push v => if q.length < C - 1 then (q ++ [v], .pushed true) else (q, .pushed false)
  | .pop =>
    match q with
    | [] => ([], .popped none)
    | x :: r => (r, .popped (some x))

/-- The observations of the bounded FIFO queue on a request list. -/
def runQueue (C : Nat) (q : List T) : List (Op T) → List (Obs T)
  | [] => []
  | op :: ops => (stepQueue C q op).2 :: runQueue C (stepQueue C q op).1 ops

/-- Apply `emplace` once per value, collecting the returned `bool`s. -/
def pushRun (C : Nat) (b : SpscRingBuffer T) : List T → List Bool × SpscRingBuffer T
  | [] => ([], b)
  | v :: vs =>
    ((emplace C v b).1 :: (pushRun C (emplace C v b).2 vs).1,
     (pushRun C (emplace C v b).2 vs).2)

/-! ### Machine-word arithmetic -/

theorem W_eq : W = 2 ^ 64 := by norm_num [W]

theorem W_pos : 0 < W := by norm_num [W]

theorem usub_lt_W (a b : Nat) : usub a b < W := by
  simp only [usub, W]; omega

theorem usub_eq_zero_iff (a b : Nat) : usub a b = 0 ↔ a % W = b % W := by
  simp only [usub, W]; omega

theorem usub_succ_left (a b : Nat) : usub ((a + 1) % W) b = (usub a b + 1) % W := by
  simp only [usub, W]; omega

theorem usub_succ_right (a b : Nat) (h : usub a b ≠ 0) :
    usub a ((b + 1) % W) = usub a b - 1 := by
  simp only [usub, W] at *; omega

theorem usub_same (a : Nat) : usub a a = 0 := by
  simp only [usub, W]; omega

theorem usub_succ_left' {a b n : Nat} (h : usub a b = n) (hn : n + 1 < W) :
    usub ((a + 1) % W) b = n + 1 := by
  rw [usub_succ_left, h, Nat.mod_eq_of_lt hn]

/-! ### List helpers for slot updates -/

theorem getD_set_ne {α : Type} (l : List α) {m n : Nat} (h : m ≠ n) (x d : α) :
    (l.set m x).getD n d = l.getD n d := by
  simp [List.getD_eq_getElem?_getD, List.getElem?_set_ne h]

theorem getD_set_self {α : Type} (l : List α) {n : Nat} (hn : n < l.length) (x d : α) :
    (l.set n x).getD n d = x := by
  simp [List.getD_eq_getElem?_getD, List.getElem?_set_self hn]

theorem getD_set_none_self (l : List (Option T)) (n : Nat) :
    (l.set n (none : Option T)).getD n none = none := by
  by_cases hn : n < l.length
  · simp [List.getD_eq_getElem?_getD, List.getElem?_set_self hn]
  · rw [List.set_eq_of_length_le (Nat.le_of_not_lt hn)]
    simp [List.getD_eq_getElem?_getD, List.getElem?_eq_none (Nat.le_of_not_lt hn)]

theorem clearSlots_succ (s : List (Option T)) (start n : Nat) :
    clearSlots s start (n + 1) = (clearSlots s start n).set (start + n) none := by
  simp [clearSlots, List.range_succ]

theorem clearSlots_length (s : List (Option T)) (start n : Nat) :
    (clearSlots s start n).length = s.length := by
  induction n with
  | zero => simp [clearSlots]
  | succ m ih => rw [clearSlots_succ]; simp [ih]

theorem clearSlots_getD (s : List (Option T)) (start n j : Nat) :
    (clearSlots s start n).getD j none =
      if start ≤ j ∧ j < start + n then none else s.getD j none := by
  induction n with
  | zero =>
    simp only [clearSlots, List.range_zero, List.foldl_nil]
    rw [if_neg (by omega)]
  | succ m ih =>
    rw [clearSlots_succ]
    by_cases hj : start + m = j
    · subst hj
      rw [getD_set_none_self, if_pos ⟨Nat.le_add_right _ _, by omega⟩]
    · rw [getD_set_ne _ hj, ih]
      by_cases h1 : start ≤ j ∧ j < start + m
      · rw [if_pos h1, if_pos ⟨h1.1, by omega⟩]
      · rw [if_neg h1, if_neg (by omega)]

/-! ### Power-of-two capacity arithmetic -/

theorem mask_eq_mod {C k : Nat} (hC : C = 2 ^ k) (a : Nat) : a &&& (C - 1) = a % C := by
  subst hC; exact Nat.and_pow_two_sub_one_eq_mod a k

theorem C_dvd_W {C k : Nat} (hC : C = 2 ^ k) (hk : k ≤ 64) : C ∣ W := by
  subst hC; rw [W_eq]; exact pow_dvd_pow 2 hk

theorem C_le_two_pow {C k : Nat} (hC : C = 2 ^ k) (hk63 : k ≤ 63) : C ≤ 2 ^ 63 := by
  subst hC; exact Nat.pow_le_pow_right (by norm_num) hk63

theorem two_le_C {C k : Nat} (hC : C = 2 ^ k) (hk1 : 1 ≤ k) : 2 ≤ C := by
  subst hC
  calc 2 = 2 ^ 1 := by norm_num
  _ ≤ 2 ^ k := Nat.pow_le_pow_right (by norm_num) hk1

theorem C_lt_W {C k : Nat} (hC : C = 2 ^ k) (hk63 : k ≤ 63) : C < W := by
  have h1 := C_le_two_pow hC hk63
  have h2 : (2 : Nat) ^ 63 < W := by norm_num [W]
  omega

theorem modW_modEq {C : Nat} (hCW : C ∣ W) (x : Nat) : x % W ≡ x [MOD C] :=
  (Nat.mod_modEq x W).of_dvd hCW

/-- The counter difference locates `a`'s slot relative to `b`'s slot. -/
theorem mod_usub_add {C : Nat} (hCW : C ∣ W) (a b : Nat) :
    (b + usub a b) % C = a % C := by
  have hblt : b % W < W := Nat.mod_lt _ W_pos
  have h1 : b + usub a b ≡ b % W + (a % W + (W - b % W)) [MOD C] :=
    Nat.ModEq.add (modW_modEq hCW b).symm (modW_modEq hCW _)
  have h2 : b % W + (a % W + (W - b % W)) = a % W + W := by omega
  have h3 : a % W + W ≡ a % W + 0 [MOD C] :=
    Nat.ModEq.add_left _ (Nat.modEq_zero_iff_dvd.mpr hCW)
  have h4 : b + usub a b ≡ a [MOD C] := by
    calc b + usub a b ≡ b % W + (a % W + (W - b % W)) [MOD C] := h1
    _ = a % W + W := h2
    _ ≡ a % W + 0 [MOD C] := h3
    _ = a % W := by omega
    _ ≡ a [MOD C] := modW_modEq hCW a
  exact h4

/-- Two logical offsets below the capacity occupy the same physical slot
only if they are equal. -/
theorem slot_mod_inj {C : Nat} (t : Nat) {i j : Nat} (hi : i < C) (hj : j < C)
    (h : (t + i) % C = (t + j) % C) : i = j := by
  have h' : i ≡ j [MOD C] := Nat.ModEq.add_left_cancel' t h
  have h2 : i % C = j % C := h'
  rwa [Nat.mod_eq_of_lt hi, Nat.mod_eq_of_lt hj] at h2

theorem mod_two_regions {x C : Nat} (hC : 0 < C) (h : x < 2 * C) :
    x % C = if x < C then x else x - C := by
  by_cases hx : x < C
  · rw [if_pos hx, Nat.mod_eq_of_lt hx]
  · rw [if_neg hx]
    have h1 : x - C < C := by omega
    have h2 : x % C = (x - C) % C := by
      conv_lhs => rw [show x = (x - C) + C by omega]
      simp [Nat.add_mod_right]
    rw [h2, Nat.mod_eq_of_lt h1]

theorem modW_add_mod {C : Nat} (hCW : C ∣ W) (x y : Nat) :
    (x % W + y) % C = (x + y) % C := by
  have h : x % W + y ≡ x + y [MOD C] := Nat.ModEq.add (modW_modEq hCW x) Nat.ModEq.rfl
  exact h

/-! ### Invariant and abstraction basics -/

theorem size_mk (s : List (Option T)) (h t : Nat) :
    size (⟨s, h, t⟩ : SpscRingBuffer T) = usub h t := rfl

theorem absList_length (C : Nat) (b : SpscRingBuffer T) :
    (absList C b).length = size b := by
  simp [absList]

theorem head_mod_eq {C : Nat} (hCW : C ∣ W) (b : SpscRingBuffer T) :
    b.head % C = (b.tail + size b) % C :=
  (mod_usub_add hCW b.head b.tail).symm

/-! ### Behaviour of `emplace` -/

/-- On a full buffer (`C - 1` live elements) `emplace` fails and returns
the state unchanged. -/
theorem emplace_full_state {C k : Nat} (hC : C = 2 ^ k) (hk1 : 1 ≤ k) (hk63 : k ≤ 63)
    {b : SpscRingBuffer T} (hb : Inv C b) (v : T)
    (hfull : size b = C - 1) : emplace C v b = (false, b) := by
  obtain ⟨hlen, hh, ht, hsz, hlive⟩ := hb
  have hCW' := C_lt_W hC hk63
  have hC2 := two_le_C hC hk1
  unfold size at hfull
  have hg : C - 1 < usub ((b.head + 1) % W) b.tail := by
    rw [usub_succ_left' hfull (by omega)]
    omega
  simp [emplace, hg]

/-- On a non-full buffer `emplace` succeeds, writing slot `head % C` and
advancing `head`. -/
theorem emplace_ok {C k : Nat} (hC : C = 2 ^ k) (hk63 : k ≤ 63)
    {b : SpscRingBuffer T} (hb : Inv C b) (v : T)
    (hlt : size b < C - 1) :
    emplace C v b =
      (true, ⟨b.storage.set (b.head % C) (some v), (b.head + 1) % W, b.tail⟩) := by
  obtain ⟨hlen, hh, ht, hsz, hlive⟩ := hb
  have hCW' := C_lt_W hC hk63
  unfold size at hlt
  have hg : ¬ (C - 1 < usub ((b.head + 1) % W) b.tail) := by
    rw [usub_succ_left' rfl (by omega)]
    omega
  simp [emplace, hg, mask_eq_mod hC]

/-- Successful `emplace` preserves the invariant and appends the new
value to the abstract queue. -/
theorem emplace_spec_lt {C k : Nat} (hC : C = 2 ^ k) (hk1 : 1 ≤ k) (hk63 : k ≤ 63)
    {b : SpscRingBuffer T} (hb : Inv C b) (v : T) (hlt : size b < C - 1) :
    (emplace C v b).1 = true ∧ Inv C (emplace C v b).2 ∧
    absList C (emplace C v b).2 = absList C b ++ [v] ∧
    (emplace C v b).2.tail = b.tail := by
  have hCW := C_dvd_W hC (by omega)
  have hC2 := two_le_C hC hk1
  have hCW' := C_lt_W hC hk63
  have hhead := head_mod_eq hCW b
  obtain ⟨hlen, hh, ht, hsz, hlive⟩ := hb
  rw [emplace_ok hC hk63 ⟨hlen, hh, ht, hsz, hlive⟩ v hlt]
  have hszeq : usub ((b.head + 1) % W) b.tail = size b + 1 :=
    usub_succ_left' rfl (by omega)
  have hsC : size b < C := by omega
  have hmodlt : b.head % C < C := Nat.mod_lt _ (by omega)
  have hslot_ne : ∀ i, i < size b → b.head % C ≠ (b.tail + i) % C := by
    intro i hi hEq
    rw [hhead] at hEq
    exact absurd (slot_mod_inj b.tail hsC (by omega) hEq) (by omega)
  refine ⟨rfl, ⟨by simpa using hlen, Nat.mod_lt _ W_pos, ht, ?_, ?_⟩, ?_, rfl⟩
  · show usub ((b.head + 1) % W) b.tail ≤ C - 1
    rw [hszeq]; omega
  · show ∀ i, i < usub ((b.head + 1) % W) b.tail → _
    rw [hszeq]
    intro i hi
    by_cases hcase : i = size b
    · subst hcase
      rw [← hhead, getD_set_self _ (by rw [hlen]; exact hmodlt)]
      rfl
    · have hi' : i < size b := by omega
      rw [getD_set_ne _ (hslot_ne i hi')]
      exact hlive i hi'
  · show absList C ⟨_, _, _⟩ = _
    unfold absList
    rw [size_mk, hszeq, List.range_succ, List.map_append]
    congr 1
    · exact List.map_congr_left fun i hi => by
        rw [getD_set_ne _ (hslot_ne i (List.mem_range.mp hi))]
    · simp only [List.map_cons, List.map_nil]
      rw [← hhead, getD_set_self _ (by rw [hlen]; exact hmodlt)]
      rfl

/-! ### Behaviour of `pop` and `try_pop` -/

theorem try_pop_eq_pop (C : Nat) (b : SpscRingBuffer T) : try_pop C b = pop C b := rfl

/-- On an empty buffer `pop` fails and returns the state unchanged. -/
theorem pop_empty_state {C : Nat} {b : SpscRingBuffer T}
    (h : b.tail % W = b.head % W) : pop C b = (none, b) := by
  simp [pop, h]

/-- On a non-empty buffer `pop` returns the head of the abstract queue,
destroys slot `tail % C` and advances `tail`. -/
theorem pop_ok {C k : Nat} (hC : C = 2 ^ k)
    {b : SpscRingBuffer T} (hne : size b ≠ 0) :
    pop C b = ((absList C b).head?,
      ⟨b.storage.set (b.tail % C) none, b.head, (b.tail + 1) % W⟩) := by
  have hg : ¬ (b.tail % W = b.head % W) := by
    intro hEq
    exact hne ((usub_eq_zero_iff _ _).mpr hEq.symm)
  obtain ⟨n, hn⟩ : ∃ n, size b = n + 1 := ⟨size b - 1, by omega⟩
  have hhead : (absList C b).head? =
      some ((b.storage.getD (b.tail % C) none).getD default) := by
    unfold absList
    rw [hn, List.range_succ_eq_map, List.map_cons, List.head?_cons, Nat.add_zero]
  simp [pop, hg, mask_eq_mod hC, hhead]

/-- `pop` preserves the invariant. -/
theorem pop_inv {C k : Nat} (hC : C = 2 ^ k) (hk1 : 1 ≤ k) (hk63 : k ≤ 63)
    {b : SpscRingBuffer T} (hb : Inv C b) : Inv C (pop C b).2 := by
  by_cases hne : size b = 0
  · rw [pop_empty_state ((usub_eq_zero_iff _ _).mp hne).symm]
    exact hb
  · have hCW := C_dvd_W hC (by omega)
    have hC2 := two_le_C hC hk1
    obtain ⟨hlen, hh, ht, hsz, hlive⟩ := hb
    rw [pop_ok hC hne]
    have hszb : usub b.head b.tail = size b := rfl
    have hszeq : usub b.head ((b.tail + 1) % W) = size b - 1 :=
      usub_succ_right _ _ hne
    refine ⟨by simpa using hlen, hh, Nat.mod_lt _ W_pos, ?_, ?_⟩
    · show usub b.head ((b.tail + 1) % W) ≤ C - 1
      rw [hszeq]; rw [hszb] at hsz; omega
    · show ∀ i, i < usub b.head ((b.tail + 1) % W) → _
      rw [hszeq]
      rw [hszb] at hsz hlive
      intro i hi
      have hidx : ((b.tail + 1) % W + i) % C = (b.tail + (1 + i)) % C := by
        rw [modW_add_mod hCW, Nat.add_assoc]
      have hne2 : b.tail % C ≠ ((b.tail + 1) % W + i) % C := by
        rw [hidx]
        intro hEq
        have h0 : (b.tail + 0) % C = (b.tail + (1 + i)) % C := by
          rwa [Nat.add_zero]
        have : (0 : Nat) = 1 + i :=
          slot_mod_inj b.tail (by omega) (by omega) h0
        omega
      show ((b.storage.set (b.tail % C) none).getD _ none).isSome = true
      rw [getD_set_ne _ hne2, hidx]
      exact hlive (1 + i) (by omega)

/-- `pop` removes exactly the head of the abstract queue. -/
theorem pop_absList {C k : Nat} (hC : C = 2 ^ k) (hk1 : 1 ≤ k) (hk63 : k ≤ 63)
    {b : SpscRingBuffer T} (hb : Inv C b) :
    absList C (pop C b).2 = (absList C b).tail := by
  by_cases hne : size b = 0
  · rw [pop_empty_state ((usub_eq_zero_iff _ _).mp hne).symm]
    have h1 : absList C b = [] := by
      unfold absList; rw [hne]; rfl
    rw [h1]
    rfl
  · have hCW := C_dvd_W hC (by omega)
    have hC2 := two_le_C hC hk1
    obtain ⟨hlen, hh, ht, hsz, hlive⟩ := hb
    rw [pop_ok hC hne]
    have hszb : usub b.head b.tail = size b := rfl
    rw [hszb] at hsz
    have hszeq : usub b.head ((b.tail + 1) % W) = size b - 1 :=
      usub_succ_right _ _ hne
    obtain ⟨n, hn⟩ : ∃ n, size b = n + 1 := ⟨size b - 1, by omega⟩
    have habs : absList C b =
        (b.storage.getD (b.tail % C) none).getD default ::
          (List.range n).map
            (fun i => (b.storage.getD ((b.tail + (i + 1)) % C) none).getD default) := by
      unfold absList
      rw [hn, List.range_succ_eq_map, List.map_cons, List.map_map, Nat.add_zero]
      congr 1
    rw [habs, List.tail_cons]
    unfold absList
    rw [size_mk, hszeq, hn, Nat.add_sub_cancel]
    exact List.map_congr_left fun i hi => by
      have hiC : i + 1 < C := by
        have := List.mem_range.mp hi
        omega
      have hidx : ((b.tail + 1) % W + i) % C = (b.tail + (i + 1)) % C := by
        rw [modW_add_mod hCW, Nat.add_assoc, Nat.add_comm 1 i]
      have hne2 : b.tail % C ≠ ((b.tail + 1) % W + i) % C := by
        rw [hidx]
        intro hEq
        have h0 : (b.tail + 0) % C = (b.tail + (i + 1)) % C := by
          rwa [Nat.add_zero]
        have : (0 : Nat) = i + 1 :=
          slot_mod_inj b.tail (by omega) hiC h0
        omega
      rw [getD_set_ne _ hne2, hidx]

/-- The value delivered by `pop` is the head of the abstract queue. -/
theorem pop_val {C k : Nat} (hC : C = 2 ^ k)
    {b : SpscRingBuffer T} : (pop C b).1 = (absList C b).head? := by
  by_cases hne : size b = 0
  · rw [pop_empty_state ((usub_eq_zero_iff _ _).mp hne).symm]
    have h1 : absList C b = [] := by
      unfold absList; rw [hne]; rfl
    rw [h1]
    rfl
  · rw [pop_ok hC hne]

/-! ### Trace simulation against the bounded FIFO queue -/

theorem mkBuffer_inv (C : Nat) : Inv C (mkBuffer T C) := by
  refine ⟨by simp [mkBuffer], by norm_num [mkBuffer, W], by norm_num [mkBuffer, W], ?_, ?_⟩
  · show usub 0 0 ≤ C - 1
    rw [usub_same]
    omega
  · show ∀ i, i < usub 0 0 → _
    rw [usub_same]
    omega

theorem absList_mkBuffer (C : Nat) : absList C (mkBuffer T C) = [] := by
  unfold absList mkBuffer
  rw [size_mk, usub_same]
  rfl

/-- One buffer step simulates one step of the bounded queue. -/
theorem stepBuf_sim {C k : Nat} (hC : C = 2 ^ k) (hk1 : 1 ≤ k) (hk63 : k ≤ 63)
    {b : SpscRingBuffer T} (hb : Inv C b) (op : Op T) :
    Inv C (stepBuf C b op).1 ∧
    absList C (stepBuf C b op).1 = (stepQueue C (absList C b) op).1 ∧
    (stepBuf C b op).2 = (stepQueue C (absList C b) op).2 := by
  cases op with
  | push v =>
    by_cases hlt : size b < C - 1
    · obtain ⟨h1, h2, h3, _⟩ := emplace_spec_lt hC hk1 hk63 hb v hlt
      have hql : (absList C b).length < C - 1 := by rw [absList_length]; exact hlt
      simp only [stepBuf, stepQueue]
      rw [if_pos hql, h1]
      exact ⟨h2, h3, rfl⟩
    · have hsz : size b = C - 1 := by
        obtain ⟨_, _, _, hs, _⟩ := hb
        have hszb : usub b.head b.tail = size b := rfl
        omega
      have hfull := emplace_full_state hC hk1 hk63 hb v hsz
      have hql : ¬ ((absList C b).length < C - 1) := by rw [absList_length]; omega
      simp only [stepBuf, stepQueue]
      rw [if_neg hql, hfull]
      exact ⟨hb, rfl, rfl⟩
  | pop =>
    have h1 := pop_inv hC hk1 hk63 hb
    have h2 := pop_absList hC hk1 hk63 hb
    have h3 := pop_val (b := b) hC
    simp only [stepBuf, stepQueue]
    cases hq : absList C b with
    | nil =>
      rw [hq] at h2 h3
      exact ⟨h1, by rw [h2]; rfl, by rw [h3]; rfl⟩
    | cons x r =>
      rw [hq] at h2 h3
      exact ⟨h1, by rw [h2]; rfl, by rw [h3]; rfl⟩

/-- Trace simulation: from any well-formed state, the buffer's
observations equal those of the bounded queue holding its live
elements. -/
theorem runBuf_sim {C k : Nat} (hC : C = 2 ^ k) (hk1 : 1 ≤ k) (hk63 : k ≤ 63) :
    ∀ (ops : List (Op T)) (b : SpscRingBuffer T), Inv C b →
      runBuf C b ops = runQueue C (absList C b) ops := by
  intro ops
  induction ops with
  | nil => intro b _; rfl
  | cons op ops ih =>
    intro b hb
    obtain ⟨h1, h2, h3⟩ := stepBuf_sim hC hk1 hk63 hb op
    simp only [runBuf, runQueue]
    rw [h3, ih _ h1, h2]

/-! ### Observational operations -/

theorem empty_iff (b : SpscRingBuffer T) : empty b = true ↔ size b = 0 := by
  have h := usub_eq_zero_iff b.head b.tail
  simp only [empty, beq_iff_eq, size]
  constructor
  · intro hEq; exact h.mpr hEq.symm
  · intro hz; exact (h.mp hz).symm

theorem full_iff {C : Nat} {b : SpscRingBuffer T} (hb : Inv C b) :
    full C b = true ↔ size b = C - 1 := by
  obtain ⟨_, _, _, hs, _⟩ := hb
  have hszb : usub b.head b.tail = size b := rfl
  simp only [full, decide_eq_true_eq]
  omega

/-! ### Behaviour of `clear` -/

theorem clear_unfold (C : Nat) (b : SpscRingBuffer T) :
    clear C b =
      if (try_pop C b).1.isSome then clear C (try_pop C b).2 else (try_pop C b).2 := by
  rw [clear]
  rfl

theorem drainSpec_unfold (C : Nat) (b : SpscRingBuffer T) :
    drainSpec C b =
      if (try_pop C b).1.isNone then (try_pop C b).2 else drainSpec C (try_pop C b).2 := by
  rw [drainSpec]
  rfl

theorem clear_of_empty {C : Nat} {b : SpscRingBuffer T}
    (hemp : b.tail % W = b.head % W) : clear C b = b ∧ drainSpec C b = b := by
  have htp : try_pop C b = (none, b) := by
    rw [try_pop_eq_pop]; exact pop_empty_state hemp
  rw [clear_unfold, drainSpec_unfold, htp]
  constructor <;> simp

theorem try_pop_isSome {C : Nat} {b : SpscRingBuffer T}
    (h0 : usub b.head b.tail ≠ 0) : (try_pop C b).1.isSome = true := by
  have hg : ¬ (b.tail % W = b.head % W) :=
    fun hEq => h0 ((usub_eq_zero_iff _ _).mpr hEq.symm)
  simp [try_pop, hg]

theorem try_pop_measure {C : Nat} {b : SpscRingBuffer T}
    (h0 : usub b.head b.tail ≠ 0) :
    usub (try_pop C b).2.head (try_pop C b).2.tail = usub b.head b.tail - 1 := by
  have hg : ¬ (b.tail % W = b.head % W) :=
    fun hEq => h0 ((usub_eq_zero_iff _ _).mpr hEq.symm)
  simp only [try_pop, if_neg hg]
  exact usub_succ_right _ _ h0

theorem clear_aux (C : Nat) :
    ∀ (n : Nat) (b : SpscRingBuffer T), usub b.head b.tail ≤ n →
      clear C b = drainSpec C b ∧
      (clear C b).tail % W = (clear C b).head % W := by
  intro n
  induction n with
  | zero =>
    intro b hle
    have hemp : b.tail % W = b.head % W :=
      ((usub_eq_zero_iff _ _).mp (by omega)).symm
    obtain ⟨e1, e2⟩ := clear_of_empty (C := C) hemp
    rw [e1, e2]
    exact ⟨rfl, hemp⟩
  | succ m ih =>
    intro b hle
    by_cases h0 : usub b.head b.tail = 0
    · have hemp : b.tail % W = b.head % W := ((usub_eq_zero_iff _ _).mp h0).symm
      obtain ⟨e1, e2⟩ := clear_of_empty (C := C) hemp
      rw [e1, e2]
      exact ⟨rfl, hemp⟩
    · have hsome := try_pop_isSome (C := C) h0
      have hmeas := try_pop_measure (C := C) h0
      have hnone : (try_pop C b).1.isNone = false := by
        cases ho : (try_pop C b).1 with
        | none => rw [ho] at hsome; simp at hsome
        | some x => rfl
      obtain ⟨e1, e2⟩ := ih (try_pop C b).2 (by omega)
      refine ⟨?_, ?_⟩
      · rw [clear_unfold, drainSpec_unfold, if_pos hsome, hnone]
        simpa using e1
      · rw [clear_unfold, if_pos hsome]
        exact e2

/-- `clear` computes the same state as the spec's try_pop-drain loop. -/
theorem clear_eq_drainSpec (C : Nat) (b : SpscRingBuffer T) :
    clear C b = drainSpec C b :=
  (clear_aux C (usub b.head b.tail) b le_rfl).1

/-- After `clear` the buffer is empty. -/
theorem clear_counters (C : Nat) (b : SpscRingBuffer T) :
    (clear C b).tail % W = (clear C b).head % W :=
  (clear_aux C (usub b.head b.tail) b le_rfl).2

theorem clear_inv_aux {C k : Nat} (hC : C = 2 ^ k) (hk1 : 1 ≤ k) (hk63 : k ≤ 63) :
    ∀ (n : Nat) (b : SpscRingBuffer T), usub b.head b.tail ≤ n → Inv C b →
      Inv C (clear C b) := by
  intro n
  induction n with
  | zero =>
    intro b hle hb
    have hemp : b.tail % W = b.head % W :=
      ((usub_eq_zero_iff _ _).mp (by omega)).symm
    rw [(clear_of_empty (C := C) hemp).1]
    exact hb
  | succ m ih =>
    intro b hle hb
    by_cases h0 : usub b.head b.tail = 0
    · have hemp : b.tail % W = b.head % W := ((usub_eq_zero_iff _ _).mp h0).symm
      rw [(clear_of_empty (C := C) hemp).1]
      exact hb
    · have hsome := try_pop_isSome (C := C) h0
      have hmeas := try_pop_measure (C := C) h0
      rw [clear_unfold, if_pos hsome]
      have hinv2 : Inv C (try_pop C b).2 := by
        rw [try_pop_eq_pop]
        exact pop_inv hC hk1 hk63 hb
      exact ih (try_pop C b).2 (by omega) hinv2

/-! ### Behaviour of repeated pushes -/

theorem pushRun_sim {C k : Nat} (hC : C = 2 ^ k) (hk1 : 1 ≤ k) (hk63 : k ≤ 63) :
    ∀ (vs : List T) (b : SpscRingBuffer T), Inv C b →
      size b + vs.length ≤ C - 1 →
      (pushRun C b vs).1 = List.replicate vs.length true ∧
      Inv C (pushRun C b vs).2 ∧
      absList C (pushRun C b vs).2 = absList C b ++ vs := by
  intro vs
  induction vs with
  | nil =>
    intro b hb _
    exact ⟨rfl, hb, by simp [pushRun]⟩
  | cons v vs ih =>
    intro b hb hle
    simp only [List.length_cons] at hle
    have hlt : size b < C - 1 := by omega
    obtain ⟨h1, h2, h3, _⟩ := emplace_spec_lt hC hk1 hk63 hb v hlt
    have hsz2 : size (emplace C v b).2 = size b + 1 := by
      have e1 := absList_length C (emplace C v b).2
      have e2 := absList_length C b
      rw [h3] at e1
      simp only [List.length_append, List.length_cons, List.length_nil] at e1
      omega
    obtain ⟨g1, g2, g3⟩ := ih (emplace C v b).2 h2 (by rw [hsz2]; omega)
    refine ⟨?_, g2, ?_⟩
    · simp only [pushRun, g1, h1, List.length_cons, List.replicate_succ]
    · simp only [pushRun]
      rw [g3, h3, List.append_assoc, List.singleton_append]

/-! ### Behaviour of `peek` -/

/-- On a non-empty buffer `peek` returns the oldest live element — the
same value a subsequent `pop` delivers — without any state change (the
operation is `const` and returns no state). -/
theorem peek_spec {C k : Nat} (hC : C = 2 ^ k)
    {b : SpscRingBuffer T} (hne : size b ≠ 0) :
    peek C b = (absList C b).head? ∧ peek C b = (pop C b).1 := by
  have hg : ¬ (b.tail % W = b.head % W) := by
    intro hEq
    exact hne ((usub_eq_zero_iff _ _).mpr hEq.symm)
  obtain ⟨n, hn⟩ : ∃ n, size b = n + 1 := ⟨size b - 1, by omega⟩
  have hhead : (absList C b).head? =
      some ((b.storage.getD (b.tail % C) none).getD default) := by
    unfold absList
    rw [hn, List.range_succ_eq_map, List.map_cons, List.head?_cons, Nat.add_zero]
  have hpk : peek C b =
      some ((b.storage.getD (b.tail % C) none).getD default) := by
    simp [peek, hg, mask_eq_mod hC]
  rw [pop_val hC, hpk, hhead]
  exact ⟨rfl, rfl⟩

/-! ### Behaviour of `pop_bulk` -/

theorem usub_mod_right (a b : Nat) : usub a (b % W) = usub a b := by
  simp only [usub, W]
  omega

theorem usub_add_right (a b : Nat) :
    ∀ n, n ≤ usub a b → usub a ((b + n) % W) = usub a b - n := by
  intro n
  induction n with
  | zero =>
    intro _
    rw [Nat.add_zero, usub_mod_right, Nat.sub_zero]
  | succ m ih =>
    intro hle
    have h1 : usub a ((b + m) % W) = usub a b - m := ih (by omega)
    have h2 : (b + (m + 1)) % W = ((b + m) % W + 1) % W := by
      rw [Nat.mod_add_mod, Nat.add_assoc]
    rw [h2, usub_succ_right _ _ (by omega), h1]
    omega

theorem mod_add_mod_left (t x C : Nat) : (t + x) % C = (t % C + x) % C := by
  rw [Nat.mod_add_mod]

/-- Full characterization of `pop_bulk`: it removes `min (size b) max_n`
oldest elements, delivers them in FIFO order (reassembled across the
physical wrap boundary), advances `tail` by that count, leaves `head`
alone, and preserves the invariant. -/
theorem pop_bulk_spec {C k : Nat} (hC : C = 2 ^ k) (hk1 : 1 ≤ k) (hk63 : k ≤ 63)
    {b : SpscRingBuffer T} (hb : Inv C b) (max_n : Nat) :
    (pop_bulk C b max_n).1 = (absList C b).take (min (size b) max_n) ∧
    (pop_bulk C b max_n).2.head = b.head ∧
    (pop_bulk C b max_n).2.tail = (b.tail + min (size b) max_n) % W ∧
    Inv C (pop_bulk C b max_n).2 ∧
    absList C (pop_bulk C b max_n).2 = (absList C b).drop (min (size b) max_n) := by
  obtain ⟨hlen, hh, ht, hsz, hlive⟩ := hb
  have hszb : usub b.head b.tail = size b := rfl
  have hC2 := two_le_C hC hk1
  have hCW := C_dvd_W hC (by omega)
  have hC0 : 0 < C := by omega
  by_cases h0 : usub b.head b.tail = 0 ∨ max_n = 0
  · have hm : min (size b) max_n = 0 := by
      rcases h0 with h0 | h0
      · rw [← hszb, h0]; omega
      · rw [h0]; omega
    have hpb : pop_bulk C b max_n = ([], b) := by
      simp only [pop_bulk]
      rw [if_pos h0]
    rw [hpb, hm]
    refine ⟨by simp, rfl, ?_, ⟨hlen, hh, ht, hsz, hlive⟩, by simp⟩
    rw [Nat.add_zero, Nat.mod_eq_of_lt ht]
  · push_neg at h0
    obtain ⟨hs0, hmax0⟩ := h0
    have hcond : ¬ (usub b.head b.tail = 0 ∨ max_n = 0) := by tauto
    simp only [pop_bulk]
    rw [if_neg hcond]
    have hto : (if usub b.head b.tail < max_n then usub b.head b.tail else max_n)
        = min (size b) max_n := by
      rw [hszb]
      split <;> omega
    rw [mask_eq_mod hC, hto]
    have hfirst : (if C - b.tail % C < min (size b) max_n then C - b.tail % C
        else min (size b) max_n)
        = min (C - b.tail % C) (min (size b) max_n) := by
      split <;> omega
    rw [hfirst]
    dsimp only
    have hidxlt : b.tail % C < C := Nat.mod_lt _ hC0
    have hsize_le : size b ≤ C - 1 := by omega
    have hspos : 0 < size b := by omega
    set idx := b.tail % C with hidxdef
    set m := min (size b) max_n with hmdef
    set f := min (C - idx) m with hfdef
    have hmle : m ≤ size b := Nat.min_le_left _ _
    have hmpos : 0 < m := by omega
    have hfle : f ≤ m := by omega
    have hfC : idx + f ≤ C := by omega
    -- every slot of the live suffix is untouched by the two clear loops
    have hstor : ∀ j,
        ((clearSlots (clearSlots b.storage idx f) 0 (m - f)).getD j none) =
          if (idx ≤ j ∧ j < idx + f) ∨ j < m - f then none
          else b.storage.getD j none := by
      intro j
      rw [clearSlots_getD, clearSlots_getD]
      by_cases h1 : j < m - f
      · rw [if_pos ⟨Nat.zero_le _, by omega⟩, if_pos (Or.inr h1)]
      · rw [if_neg (by omega)]
        by_cases h2 : idx ≤ j ∧ j < idx + f
        · rw [if_pos h2, if_pos (Or.inl h2)]
        · rw [if_neg h2, if_neg (by tauto)]
    have hslot : ∀ x, x < size b → (b.tail + x) % C = (idx + x) % C := by
      intro x _
      rw [hidxdef, ← mod_add_mod_left]
    have huncleared : ∀ x, m ≤ x → x < size b →
        ((clearSlots (clearSlots b.storage idx f) 0 (m - f)).getD
            ((b.tail + x) % C) none) = b.storage.getD ((b.tail + x) % C) none := by
      intro x hxm hxs
      rw [hstor]
      have hjx : (b.tail + x) % C = (idx + x) % C := hslot x hxs
      have hreg : (idx + x) % C = if idx + x < C then idx + x else idx + x - C :=
        mod_two_regions hC0 (by omega)
      rw [if_neg ?hcleared]
      case hcleared =>
        rw [hjx, hreg]
        split <;> omega
    refine ⟨?_, rfl, rfl, ⟨?_, hh, Nat.mod_lt _ W_pos, ?_, ?_⟩, ?_⟩
    · -- the written prefix is the oldest `m` elements in order
      have htake : (absList C b).take m =
          (List.range m).map
            (fun i => (b.storage.getD ((b.tail + i) % C) none).getD default) := by
        unfold absList
        rw [← List.map_take, List.take_range, Nat.min_eq_left hmle]
      have hsplit : List.range m =
          List.range f ++ (List.range (m - f)).map (f + ·) := by
        conv_lhs => rw [show m = f + (m - f) by omega]
        exact List.range_add f (m - f)
      rw [htake, hsplit, List.map_append, List.map_map]
      congr 1
      · apply List.map_congr_left
        intro i hi
        have hif : i < f := List.mem_range.mp hi
        rw [hslot i (by omega), Nat.mod_eq_of_lt (by omega)]
      · apply List.map_congr_left
        intro i hi
        have him : i < m - f := List.mem_range.mp hi
        have hfeq : f = C - idx := by omega
        rw [clearSlots_getD, if_neg (by omega)]
        simp only [Function.comp]
        rw [hslot (f + i) (by omega)]
        have hwrap : (idx + (f + i)) % C = i := by
          rw [hfeq, show idx + (C - idx + i) = i + C by omega, Nat.add_mod_right,
            Nat.mod_eq_of_lt (by omega)]
        rw [hwrap]
    · rw [clearSlots_length, clearSlots_length]
      exact hlen
    · show usub b.head ((b.tail + m) % W) ≤ C - 1
      rw [usub_add_right b.head b.tail m (by omega)]
      omega
    · show ∀ i, i < usub b.head ((b.tail + m) % W) → _
      rw [usub_add_right b.head b.tail m (by omega)]
      intro i hi
      have hidx2 : ((b.tail + m) % W + i) % C = (b.tail + (m + i)) % C := by
        rw [modW_add_mod hCW, Nat.add_assoc]
      rw [hidx2, huncleared (m + i) (by omega) (by omega)]
      exact hlive (m + i) (by omega)
    · -- remaining elements: the dropped abstract queue
      have hdrop : (absList C b).drop m =
          (List.range (size b - m)).map
            (fun i => (b.storage.getD ((b.tail + (m + i)) % C) none).getD default) := by
        unfold absList
        conv_lhs => rw [show size b = m + (size b - m) by omega, List.range_add,
          List.map_append]
        rw [List.drop_left' (by simp), List.map_map]
        rfl
      rw [hdrop]
      show absList C ⟨_, _, _⟩ = _
      unfold absList
      rw [size_mk, usub_add_right b.head b.tail m (by omega)]
      apply List.map_congr_left
      intro i hi
      have him : i < size b - m := List.mem_range.mp hi
      have hidx2 : ((b.tail + m) % W + i) % C = (b.tail + (m + i)) % C := by
        rw [modW_add_mod hCW, Nat.add_assoc]
      rw [hidx2, huncleared (m + i) (by omega) (by omega)]

/-! ### Remaining helper lemmas -/

theorem emplace_inv {C k : Nat} (hC : C = 2 ^ k) (hk1 : 1 ≤ k) (hk63 : k ≤ 63)
    {b : SpscRingBuffer T} (hb : Inv C b) (v : T) : Inv C (emplace C v b).2 := by
  by_cases hlt : size b < C - 1
  · exact (emplace_spec_lt hC hk1 hk63 hb v hlt).2.1
  · have hsz : size b = C - 1 := by
      obtain ⟨_, _, _, hs, _⟩ := hb
      have hszb : usub b.head b.tail = size b := rfl
      omega
    rw [emplace_full_state hC hk1 hk63 hb v hsz]
    exact hb

theorem clear_inv {C k : Nat} (hC : C = 2 ^ k) (hk1 : 1 ≤ k) (hk63 : k ≤ 63)
    {b : SpscRingBuffer T} (hb : Inv C b) : Inv C (clear C b) :=
  clear_inv_aux hC hk1 hk63 (usub b.head b.tail) b le_rfl hb

theorem size_mkBuffer (C : Nat) : size (mkBuffer T C) = 0 := by
  unfold mkBuffer
  rw [size_mk, usub_same]

/-! ### The claims -/

/-- Claim C1: for every sequence of push/emplace and pop/try_pop
operations executed sequentially, the values returned by the pops are
exactly the values pushed, in the order pushed, with none lost and none
duplicated — the buffer's observable behaviour refines a FIFO queue
bounded at `C - 1` elements. -/
theorem claim_C1_fifo_refinement {C k : Nat}
    (hC : C = 2 ^ k) (hk1 : 1 ≤ k) (hk63 : k ≤ 63) (ops : List (Op T)) :
    runBuf C (mkBuffer T C) ops = runQueue C [] ops := by
  rw [runBuf_sim hC hk1 hk63 ops _ (mkBuffer_inv C), absList_mkBuffer]

theorem claim_C1_witness :
    (4 = 2 ^ 2 ∧ 1 ≤ 2 ∧ 2 ≤ 63) ∧
    runBuf 4 (mkBuffer Nat 4) [Op.push 7, Op.push 9, Op.pop, Op.pop, Op.pop] =
      runQueue 4 [] [Op.push 7, Op.push 9, Op.pop, Op.pop, Op.pop] :=
  ⟨⟨by norm_num, by norm_num, by norm_num⟩,
   claim_C1_fifo_refinement (C := 4) (k := 2) (by norm_num) (by norm_num)
     (by norm_num) _⟩

/-- Claim C2: from the empty buffer the first `N - 1` emplace calls all
succeed and the `N`-th fails; `full()` is true exactly when `N - 1`
elements are held and `empty()` exactly when `0` are held. -/
theorem claim_C2_capacity_boundary {C k : Nat}
    (hC : C = 2 ^ k) (hk1 : 1 ≤ k) (hk63 : k ≤ 63)
    (vs : List T) (hlen : vs.length = C - 1) (w : T) :
    (pushRun C (mkBuffer T C) vs).1 = List.replicate (C - 1) true ∧
    (emplace C w (pushRun C (mkBuffer T C) vs).2).1 = false ∧
    full C (pushRun C (mkBuffer T C) vs).2 = true ∧
    (∀ b : SpscRingBuffer T, Inv C b → (full C b = true ↔ size b = C - 1)) ∧
    (∀ b : SpscRingBuffer T, empty b = true ↔ size b = 0) := by
  have h0 := mkBuffer_inv (T := T) C
  have hsz0 := size_mkBuffer (T := T) C
  obtain ⟨g1, g2, g3⟩ :=
    pushRun_sim hC hk1 hk63 vs (mkBuffer T C) h0 (by rw [hsz0, hlen]; omega)
  have hsf : size (pushRun C (mkBuffer T C) vs).2 = C - 1 := by
    have e1 := absList_length C (pushRun C (mkBuffer T C) vs).2
    rw [g3, absList_mkBuffer] at e1
    simp only [List.nil_append] at e1
    omega
  refine ⟨by rw [g1, hlen], ?_, (full_iff g2).mpr hsf,
    fun b hb => full_iff hb, fun b => empty_iff b⟩
  rw [emplace_full_state hC hk1 hk63 g2 w hsf]

theorem claim_C2_witness :
    (2 = 2 ^ 1 ∧ 1 ≤ 1 ∧ 1 ≤ 63 ∧ ([5] : List Nat).length = 2 - 1) ∧
    ((pushRun 2 (mkBuffer Nat 2) [5]).1 = List.replicate (2 - 1) true ∧
     (emplace 2 9 (pushRun 2 (mkBuffer Nat 2) [5]).2).1 = false ∧
     full 2 (pushRun 2 (mkBuffer Nat 2) [5]).2 = true ∧
     (∀ b : SpscRingBuffer Nat, Inv 2 b → (full 2 b = true ↔ size b = 2 - 1)) ∧
     (∀ b : SpscRingBuffer Nat, empty b = true ↔ size b = 0)) :=
  ⟨⟨by norm_num, by norm_num, by norm_num, by norm_num⟩,
   claim_C2_capacity_boundary (C := 2) (k := 1) (by norm_num) (by norm_num)
     (by norm_num) [5] (by norm_num) 9⟩

/-- Claim C3: `head - tail` in unsigned arithmetic is in `[0, C - 1]` in
the initial state and is preserved by every public operation, and it
always equals the number of live elements, which is what `size()`
returns. -/
theorem claim_C3_invariant {C k : Nat}
    (hC : C = 2 ^ k) (hk1 : 1 ≤ k) (hk63 : k ≤ 63) :
    Inv C (mkBuffer T C) ∧
    (∀ (b : SpscRingBuffer T) (v : T), Inv C b → Inv C (push C v b).2) ∧
    (∀ (b : SpscRingBuffer T) (v : T), Inv C b → Inv C (emplace C v b).2) ∧
    (∀ b : SpscRingBuffer T, Inv C b → Inv C (pop C b).2) ∧
    (∀ b : SpscRingBuffer T, Inv C b → Inv C (try_pop C b).2) ∧
    (∀ (b : SpscRingBuffer T) (n : Nat), Inv C b → Inv C (pop_bulk C b n).2) ∧
    (∀ b : SpscRingBuffer T, Inv C b → Inv C (clear C b)) ∧
    (∀ b : SpscRingBuffer T, Inv C b →
      size b = (absList C b).length ∧ size b ≤ C - 1) := by
  refine ⟨mkBuffer_inv C,
    fun b v hb => emplace_inv hC hk1 hk63 hb v,
    fun b v hb => emplace_inv hC hk1 hk63 hb v,
    fun b hb => pop_inv hC hk1 hk63 hb,
    fun b hb => pop_inv hC hk1 hk63 hb,
    fun b n hb => (pop_bulk_spec hC hk1 hk63 hb n).2.2.2.1,
    fun b hb => clear_inv hC hk1 hk63 hb,
    fun b hb => ⟨(absList_length C b).symm, ?_⟩⟩
  obtain ⟨_, _, _, hs, _⟩ := hb
  exact hs

theorem claim_C3_witness :
    (4 = 2 ^ 2 ∧ 1 ≤ 2 ∧ 2 ≤ 63) ∧ Inv 4 (mkBuffer Nat 4) :=
  ⟨⟨by norm_num, by norm_num, by norm_num⟩,
   (claim_C3_invariant (T := Nat) (C := 4) (k := 2) (by norm_num) (by norm_num)
     (by norm_num)).1⟩

/-- Claim C4: on a state holding `C - 1` live elements, emplace (and
push) returns false and leaves the entire buffer state — head, every
slot, and the live count — unchanged. -/
theorem claim_C4_emplace_full {C k : Nat}
    (hC : C = 2 ^ k) (hk1 : 1 ≤ k) (hk63 : k ≤ 63)
    {b : SpscRingBuffer T} (hb : Inv C b) (v : T) (hfull : size b = C - 1) :
    emplace C v b = (false, b) ∧ push C v b = (false, b) := by
  have h := emplace_full_state hC hk1 hk63 hb v hfull
  exact ⟨h, h⟩

theorem claim_C4_witness :
    (2 = 2 ^ 1 ∧ 1 ≤ 1 ∧ 1 ≤ 63 ∧
     Inv 2 (⟨[some 5, none], 1, 0⟩ : SpscRingBuffer Nat) ∧
     size (⟨[some 5, none], 1, 0⟩ : SpscRingBuffer Nat) = 2 - 1) ∧
    emplace 2 9 (⟨[some 5, none], 1, 0⟩ : SpscRingBuffer Nat) =
      (false, ⟨[some 5, none], 1, 0⟩) ∧
    push 2 9 (⟨[some 5, none], 1, 0⟩ : SpscRingBuffer Nat) =
      (false, ⟨[some 5, none], 1, 0⟩) :=
  ⟨⟨by norm_num, by norm_num, by norm_num, by decide, by decide⟩,
   claim_C4_emplace_full (C := 2) (k := 1) (by norm_num) (by norm_num)
     (by norm_num) (by decide) 9 (by decide)⟩

/-- Claim C5: on an empty state (`head = tail`), `pop` returns false and
`try_pop` an empty optional, in both cases leaving the state (counters
and storage) unchanged. -/
theorem claim_C5_pop_empty (C : Nat) (b : SpscRingBuffer T) (h : b.head = b.tail) :
    pop C b = (none, b) ∧ try_pop C b = (none, b) := by
  have hg : b.tail % W = b.head % W := by rw [h]
  exact ⟨pop_empty_state hg, by rw [try_pop_eq_pop]; exact pop_empty_state hg⟩

theorem claim_C5_witness :
    ((mkBuffer Nat 4).head = (mkBuffer Nat 4).tail) ∧
    pop 4 (mkBuffer Nat 4) = (none, mkBuffer Nat 4) ∧
    try_pop 4 (mkBuffer Nat 4) = (none, mkBuffer Nat 4) :=
  ⟨rfl, claim_C5_pop_empty 4 _ rfl⟩

/-- Claim C6: `pop_bulk(out, max_n)` returns exactly `min (size b) max_n`
elements — the oldest ones, in FIFO order, reassembled across the
physical wrap boundary — and advances `tail` by exactly the returned
count, leaving `head` unchanged. -/
theorem claim_C6_pop_bulk {C k : Nat}
    (hC : C = 2 ^ k) (hk1 : 1 ≤ k) (hk63 : k ≤ 63)
    {b : SpscRingBuffer T} (hb : Inv C b) (max_n : Nat) :
    (pop_bulk C b max_n).1.length = min (size b) max_n ∧
    (pop_bulk C b max_n).1 = (absList C b).take (min (size b) max_n) ∧
    (pop_bulk C b max_n).2.head = b.head ∧
    (pop_bulk C b max_n).2.tail = (b.tail + (pop_bulk C b max_n).1.length) % W ∧
    absList C (pop_bulk C b max_n).2 = (absList C b).drop (min (size b) max_n) ∧
    Inv C (pop_bulk C b max_n).2 := by
  obtain ⟨h1, h2, h3, h4, h5⟩ := pop_bulk_spec hC hk1 hk63 hb max_n
  have hlen1 : (pop_bulk C b max_n).1.length = min (size b) max_n := by
    rw [h1, List.length_take, absList_length]
    omega
  exact ⟨hlen1, h1, h2, by rw [hlen1]; exact h3, h5, h4⟩

theorem claim_C6_witness :
    (4 = 2 ^ 2 ∧ 1 ≤ 2 ∧ 2 ≤ 63 ∧
     Inv 4 (⟨[some 30, none, some 10, some 20], 5, 2⟩ : SpscRingBuffer Nat)) ∧
    (pop_bulk 4 (⟨[some 30, none, some 10, some 20], 5, 2⟩ : SpscRingBuffer Nat) 3).1 =
      [10, 20, 30] := by
  refine ⟨⟨by norm_num, by norm_num, by norm_num, by decide⟩, ?_⟩
  have h := (claim_C6_pop_bulk (T := Nat) (C := 4) (k := 2)
    (b := ⟨[some 30, none, some 10, some 20], 5, 2⟩) (by norm_num) (by norm_num)
    (by norm_num) (by decide) 3).2.1
  rw [h]
  decide

/-- Claim C7: on a non-empty state `peek` succeeds and returns the oldest
live element without changing anything (the operation is `const`: it
yields no new state, destroys nothing, does not advance `tail`), and a
subsequent `pop` yields that same element. -/
theorem claim_C7_peek {C k : Nat} (hC : C = 2 ^ k)
    {b : SpscRingBuffer T} (hne : 0 < size b) :
    ∃ x, peek C b = some x ∧ (absList C b).head? = some x ∧ (pop C b).1 = some x := by
  obtain ⟨h1, h2⟩ := peek_spec hC (b := b) (by omega)
  have hlen : (absList C b).length = size b := absList_length C b
  cases habs : absList C b with
  | nil => rw [habs] at hlen; simp at hlen; omega
  | cons x r =>
    refine ⟨x, ?_, rfl, ?_⟩
    · rw [h1, habs]
      rfl
    · rw [← h2, h1, habs]
      rfl

theorem claim_C7_witness :
    (2 = 2 ^ 1 ∧ 0 < size (⟨[some 5, none], 1, 0⟩ : SpscRingBuffer Nat)) ∧
    ∃ x, peek 2 (⟨[some 5, none], 1, 0⟩ : SpscRingBuffer Nat) = some x ∧
      (absList 2 (⟨[some 5, none], 1, 0⟩ : SpscRingBuffer Nat)).head? = some x ∧
      (pop 2 (⟨[some 5, none], 1, 0⟩ : SpscRingBuffer Nat)).1 = some x :=
  ⟨⟨by norm_num, by decide⟩,
   claim_C7_peek (C := 2) (k := 1) (b := ⟨[some 5, none], 1, 0⟩)
     (by norm_num) (by decide)⟩

/-- Claim C8: `clear()` terminates, leaves the buffer empty (`empty()`
true, `size()` zero), and its effect on the state is exactly that of
calling `try_pop` until it returns an empty optional, discarding the
values. -/
theorem claim_C8_clear (C : Nat) (b : SpscRingBuffer T) :
    empty (clear C b) = true ∧ size (clear C b) = 0 ∧ clear C b = drainSpec C b := by
  have h := clear_counters C b
  refine ⟨?_, ?_, clear_eq_drainSpec C b⟩
  · simp [empty, h]
  · show usub (clear C b).head (clear C b).tail = 0
    exact (usub_eq_zero_iff _ _).mpr h.symm

/-- Claim C9: `emplace_bulk` reports failure on every input and never
mutates the buffer. -/
theorem claim_C9_emplace_bulk (b : SpscRingBuffer T) (elements : List T) :
    emplace_bulk b elements = (false, b) := rfl

/-- Claim C10: `pop` and `try_pop` are equivalent on every state: they
succeed and fail on the same states, deliver the same value, and produce
the identical resulting state. -/
theorem claim_C10_pop_eq_try_pop (C : Nat) (b : SpscRingBuffer T) :
    pop C b = try_pop C b := rfl

end rb
